import Mathlib

/-!
# Verification of the Death-by-Scrolling savegame codec

Shallow embedding of `scripts/dbs_codec.py`: the XXTEA/BTEA cipher engine,
the byte/word transform, the additive checksum and the trailer codec
(`pack_block` / `unpack_block`).  Byte buffers are `List Nat` (each entry a
byte value), 32-bit words are `Nat` reduced modulo `2^32` explicitly, and
fallible operations return `Except String`.
-/

namespace DbsCodec

/-- `0x9E3779B9`, the XXTEA round constant (`DELTA` in the source). -/
def DELTA : Nat := 0x9E3779B9

/-- `_u32(x)`: reduction to a 32-bit unsigned value (`x & 0xFFFFFFFF`). -/
def u32 (x : Nat) : Nat := x % 4294967296

/-- 32-bit modular addition, as in `_u32(a + b)`. -/
def add32 (a b : Nat) : Nat := u32 (a + b)

/-- 32-bit modular subtraction.  Python computes `_u32(a - mx)` on arbitrary
precision integers, i.e. `(a - b) mod 2^32` over ℤ; on `Nat` this is
`(a + (2^32 - b % 2^32)) % 2^32`. -/
def sub32 (a b : Nat) : Nat := u32 (a + (4294967296 - b % 4294967296))

/-- The XXTEA mixing term
`mx = (_u32((z>>5) ^ (y<<2)) + _u32((y>>3) ^ (z<<4))) ^ _u32((sumv ^ y) + (kw ^ z))`.
Note the outer sum is *not* reduced modulo `2^32` in the source; neither is it
here. -/
def mx (sumv z y kw : Nat) : Nat :=
  (u32 ((z >>> 5) ^^^ (y <<< 2)) + u32 ((y >>> 3) ^^^ (z <<< 4))) ^^^
    u32 ((sumv ^^^ y) + (kw ^^^ z))

/-- Key word tap `k[(p & 3) ^ e]`. -/
def keyAt (k : List Nat) (p e : Nat) : Nat := k.getD ((p &&& 3) ^^^ e) 0

/-- Inner loop of one encryption round, from position `p ≥ 1` on.  The list
argument is `v[p..n-1]`; `z` is the already-updated `v[p-1]`, and `y0` is the
already-updated `v[0]` used by the wrap-around step (`y = v[0]` with key tap
`(n-1) & 3 ^ e`) when the last position is reached. -/
def encRoundAux (sumv e : Nat) (k : List Nat) (y0 : Nat) (z : Nat) (p : Nat) :
    List Nat → List Nat
  | [] => []
  | [x] => [add32 x (mx sumv z y0 (keyAt k p e))]
  | x :: y :: rest =>
    let x' := add32 x (mx sumv z y (keyAt k p e))
    x' :: encRoundAux sumv e k y0 x' (p + 1) (y :: rest)

/-- One full encryption round of `xxtea_encrypt_block` (the body of
`for _ in range(rounds)`): position `0` uses `z = v[n-1]` and `y = v[1]`,
then `encRoundAux` performs positions `1..n-1` including the wrap-around
step. -/
def encRound (sumv e : Nat) (k : List Nat) : List Nat → List Nat
  | [] => []
  | [x] => [x]
  | x :: y :: rest =>
    let z := (y :: rest).getLastD 0
    let x' := add32 x (mx sumv z y (keyAt k 0 e))
    x' :: encRoundAux sumv e k x' x' 1 (y :: rest)

/-- Inner loop of one decryption round.  The list argument is
`v[p-1] :: v[p..n-1]` (ciphertext values): position `p` is decrypted with
`z = v[p-1]` (still encrypted) and `y` the already-decrypted `v[p+1]`
(or `y0 = v[0]`, still encrypted, at the last position). -/
def decRoundAux (sumv e : Nat) (k : List Nat) (y0 : Nat) (p : Nat) :
    List Nat → List Nat
  | [] => []
  | [_] => []
  | [z, x] => [sub32 x (mx sumv z y0 (keyAt k p e))]
  | z :: x :: y :: rest =>
    let tail' := decRoundAux sumv e k y0 (p + 1) (x :: y :: rest)
    sub32 x (mx sumv z (tail'.headD 0) (keyAt k p e)) :: tail'

/-- One full decryption round of `xxtea_decrypt_block` (the body of
`while rounds > 0`): positions `n-1` down to `1` via `decRoundAux` (with
`y0 = v[0]`), then the wrap-around step `v[0] -= mx` with `z = v[n-1]` and
`y = v[1]`, both already decrypted. -/
def decRound (sumv e : Nat) (k : List Nat) : List Nat → List Nat
  | [] => []
  | [x] => [x]
  | w0 :: w1 :: rest =>
    let tail' := decRoundAux sumv e k w0 1 (w0 :: w1 :: rest)
    sub32 w0 (mx sumv (tail'.getLastD 0) (tail'.headD 0) (keyAt k 0 e)) :: tail'

/-- The encryption round loop (`for _ in range(rounds)`): the remaining round
count comes first, then the running `sumv`, which is incremented by `DELTA`
(mod `2^32`) at the start of each round, and `e = (sumv >> 2) & 3`. -/
def encLoop (k : List Nat) : Nat → Nat → List Nat → List Nat
  | 0 => fun _ v => v
  | r + 1 => fun sumv v =>
    encLoop k r (add32 sumv DELTA)
      (encRound (add32 sumv DELTA) ((add32 sumv DELTA >>> 2) &&& 3) k v)

/-- The decryption round loop (`while rounds > 0`): each round uses the
current `sumv` (`e = (sumv >> 2) & 3`) and then decrements it by `DELTA`
(mod `2^32`). -/
def decLoop (k : List Nat) : Nat → Nat → List Nat → List Nat
  | 0 => fun _ v => v
  | r + 1 => fun sumv v =>
    decLoop k r (sub32 sumv DELTA)
      (decRound sumv ((sumv >>> 2) &&& 3) k v)

/-- `xxtea_encrypt_block(v, k)`: a no-op for fewer than two words, otherwise
`6 + 52 // n` rounds with `sumv` starting at `0`. -/
def xxtea_encrypt_block (v k : List Nat) : List Nat :=
  if v.length < 2 then v
  else encLoop k (6 + 52 / v.length) 0 v

/-- `xxtea_decrypt_block(v, k)`: a no-op for fewer than two words, otherwise
`6 + 52 // n` rounds with `sumv` starting at `_u32(rounds * DELTA)`. -/
def xxtea_decrypt_block (v k : List Nat) : List Nat :=
  if v.length < 2 then v
  else decLoop k (6 + 52 / v.length) (u32 ((6 + 52 / v.length) * DELTA)) v

/-! ## Byte / word transform -/

/-- Reinterpret a byte list as little-endian 32-bit words
(`struct.unpack("<%dI" % (len(bb)//4), bb)`); a trailing fragment of fewer
than four bytes is dropped (never present after padding). -/
def bytesToWordsRaw : List Nat → List Nat
  | b0 :: b1 :: b2 :: b3 :: rest =>
    (b0 + 256 * b1 + 65536 * b2 + 16777216 * b3) :: bytesToWordsRaw rest
  | _ => []

/-- Zero-pad a byte buffer to the next multiple of four bytes
(`pad = (-len(b)) & 3; bb = b + b'\x00'*pad`). -/
def pad4 (b : List Nat) : List Nat :=
  b ++ List.replicate ((4 - b.length % 4) % 4) 0

/-- The word sequence built inside `xxtea_encrypt_bytes` and
`xxtea_decrypt_bytes`: zero-pad to a multiple of four, reinterpret as
little-endian words, and append one zero word when there is exactly one
word (`if len(v) == 1: v.append(0)`). -/
def bytesToWords (b : List Nat) : List Nat :=
  let v := bytesToWordsRaw (pad4 b)
  if v.length = 1 then v ++ [0] else v

/-- Serialize words to little-endian bytes
(`struct.pack("<%dI" % len(vv), *vv)`). -/
def wordsToBytes (ws : List Nat) : List Nat :=
  ws.flatMap fun w => [w % 256, w / 256 % 256, w / 65536 % 256, w / 16777216 % 256]

/-- `xxtea_encrypt_bytes(b, key16_le)`: pad, build words, encrypt, serialize
and truncate to the padded length `len(bb)`. -/
def xxtea_encrypt_bytes (b key16 : List Nat) : List Nat :=
  let v := bytesToWords b
  let k := bytesToWordsRaw key16
  (wordsToBytes (xxtea_encrypt_block v k)).take (pad4 b).length

/-- `xxtea_decrypt_bytes(b, key16_le)`: pad, build words, decrypt, serialize
and truncate to the original length `len(b)`. -/
def xxtea_decrypt_bytes (b key16 : List Nat) : List Nat :=
  let v := bytesToWords b
  let k := bytesToWordsRaw key16
  (wordsToBytes (xxtea_decrypt_block v k)).take b.length

/-! ## Checksum and trailer codec -/

/-- The hardcoded 16-byte XXTEA key of the save format. -/
def KEY : List Nat :=
  [0x93, 0x9d, 0xab, 0x7a, 0x2a, 0x56, 0xf8, 0xaf,
   0xb4, 0xdb, 0xa9, 0xb5, 0x22, 0xa3, 0x4b, 0x2b]

/-- The default `extra4` footer tag. -/
def EXTRA4 : Nat := 0x0169027d

/-- `calc_checksum(payload) = (0x06583463 + sum(payload)) & 0xFFFFFFFF`. -/
def calc_checksum (payload : List Nat) : Nat :=
  u32 (0x06583463 + payload.sum)

/-- Little-endian serialization of one 32-bit value (`struct.pack("<I", x)`). -/
def u32le (x : Nat) : List Nat :=
  [x % 256, x / 256 % 256, x / 65536 % 256, x / 16777216 % 256]

/-- Little-endian 32-bit read at a byte offset
(`struct.unpack_from("<I", l, off)`). -/
def readU32 (l : List Nat) (off : Nat) : Nat :=
  l.getD off 0 + 256 * l.getD (off + 1) 0 + 65536 * l.getD (off + 2) 0 +
    16777216 * l.getD (off + 3) 0

/-- `pack_block(payload, extra4, pad_bytes)`: build
`payload ‖ checksum(4 LE) ‖ extra4(4 LE) ‖ pad(0..7) ‖ padlen(1)` with the
minimal `padlen = (-(len(payload)+9)) & 7`; raises `pad_bytes zu kurz` when a
supplied pad buffer is shorter than `padlen`, and the final `assert` is
modelled as the error `plain block must be multiple of 8`. -/
def pack_block (payload : List Nat) (extra4 : Nat) (pad_bytes : Option (List Nat)) :
    Except String (List Nat) :=
  let base := payload.length + 9
  let padlen := (8 - base % 8) % 8
  let checksum := calc_checksum payload
  let footer := u32le checksum ++ u32le extra4
  (if padlen ≠ 0 then
      match pad_bytes with
      | none => Except.ok (List.replicate padlen 0)
      | some pb =>
        if pb.length < padlen then Except.error "pad_bytes zu kurz"
        else Except.ok (pb.take padlen)
    else Except.ok []) >>= fun pad =>
  let block := payload ++ footer ++ pad ++ [padlen]
  if block.length % 8 ≠ 0 then Except.error "plain block must be multiple of 8"
  else Except.ok block

/-- `unpack_block(plain)`: checks `len ≥ 9`, `padlen = plain[-1] ≤ 8` and
`payload_len = len - padlen - 9 ≥ 0` (computed over ℤ as in Python), then
returns `(payload, checksum, extra4, padlen)` without any checksum
comparison. -/
def unpack_block (plain : List Nat) :
    Except String (List Nat × Nat × Nat × Nat) :=
  if plain.length < 9 then Except.error "Block zu kurz"
  else
    let padlen := plain.getD (plain.length - 1) 0
    if 8 < padlen then Except.error "padlen out of range"
    else
      let payloadLen : Int := (plain.length : Int) - padlen - 9
      if payloadLen < 0 then Except.error "payload_len < 0 (korrupt?)"
      else
        let pl := payloadLen.toNat
        Except.ok (plain.take pl, readU32 plain pl, readU32 plain (pl + 4), padlen)

/-! ## Arithmetic helper lemmas -/

theorem u32_lt (x : Nat) : u32 x < 4294967296 :=
  Nat.mod_lt _ (by norm_num)

theorem add32_lt (a b : Nat) : add32 a b < 4294967296 :=
  u32_lt _

theorem sub32_lt (a b : Nat) : sub32 a b < 4294967296 :=
  u32_lt _

theorem sub32_add32 (a b : Nat) (h : a < 4294967296) :
    sub32 (add32 a b) b = a := by
  unfold sub32 add32 u32
  omega

/-! ## Shape, length and bound lemmas for the cipher rounds -/

theorem encRoundAux_cons (sumv e : Nat) (k : List Nat) (y0 z p a : Nat)
    (l : List Nat) :
    ∃ w ws, encRoundAux sumv e k y0 z p (a :: l) = w :: ws := by
  cases l <;> simp [encRoundAux]

theorem encRoundAux_length (sumv e : Nat) (k : List Nat) (y0 : Nat) :
    ∀ (l : List Nat) (z p : Nat),
      (encRoundAux sumv e k y0 z p l).length = l.length := by
  intro l
  induction l with
  | nil => intro z p; rfl
  | cons x tail ih =>
    intro z p
    cases tail with
    | nil => rfl
    | cons y rest => simp [encRoundAux, ih]

theorem encRoundAux_mem_lt (sumv e : Nat) (k : List Nat) (y0 : Nat) :
    ∀ (l : List Nat) (z p x : Nat),
      x ∈ encRoundAux sumv e k y0 z p l → x < 4294967296 := by
  intro l
  induction l with
  | nil => intro z p x hx; simp [encRoundAux] at hx
  | cons a tail ih =>
    intro z p x hx
    cases tail with
    | nil =>
      simp [encRoundAux] at hx
      exact hx ▸ add32_lt _ _
    | cons y rest =>
      simp only [encRoundAux, List.mem_cons] at hx
      rcases hx with h | h
      · exact h ▸ add32_lt _ _
      · exact ih _ _ _ h

theorem encRound_length (sumv e : Nat) (k : List Nat) (v : List Nat) :
    (encRound sumv e k v).length = v.length := by
  match v with
  | [] => rfl
  | [x] => rfl
  | x :: y :: rest =>
    simp [encRound, encRoundAux_length]

theorem encRound_mem_lt (sumv e : Nat) (k : List Nat) (v : List Nat)
    (hlen : 2 ≤ v.length) :
    ∀ x ∈ encRound sumv e k v, x < 4294967296 := by
  match v with
  | [] => intro x hx; simp at hlen
  | [a] => intro x hx; simp at hlen
  | a :: b :: rest =>
    intro x hx
    simp only [encRound, List.mem_cons] at hx
    rcases hx with h | h
    · exact h ▸ add32_lt _ _
    · exact encRoundAux_mem_lt _ _ _ _ _ _ _ _ h

/-! ## Round-level inversion -/

theorem decRoundAux_encRoundAux (sumv e : Nat) (k : List Nat) (y0 : Nat) :
    ∀ (l : List Nat) (z p : Nat), (∀ x ∈ l, x < 4294967296) →
      decRoundAux sumv e k y0 p (z :: encRoundAux sumv e k y0 z p l) = l := by
  intro l
  induction l with
  | nil => intro z p h; rfl
  | cons a tail ih =>
    intro z p h
    cases tail with
    | nil =>
      simp [encRoundAux, decRoundAux, sub32_add32 a _ (h a (by simp))]
    | cons y rest =>
      obtain ⟨w, ws, hw⟩ :=
        encRoundAux_cons sumv e k y0 (add32 a (mx sumv z y (keyAt k p e)))
          (p + 1) y rest
      have htail :
          decRoundAux sumv e k y0 (p + 1)
            (add32 a (mx sumv z y (keyAt k p e)) ::
              encRoundAux sumv e k y0 (add32 a (mx sumv z y (keyAt k p e)))
                (p + 1) (y :: rest)) = y :: rest :=
        ih (add32 a (mx sumv z y (keyAt k p e))) (p + 1)
          (fun x hx => h x (List.mem_cons_of_mem a hx))
      rw [hw] at htail
      simp only [encRoundAux, hw, decRoundAux, htail]
      simp [sub32_add32 a _ (h a (by simp))]

theorem decRound_encRound (sumv e : Nat) (k : List Nat) (v : List Nat)
    (hlen : 2 ≤ v.length) (hb : ∀ x ∈ v, x < 4294967296) :
    decRound sumv e k (encRound sumv e k v) = v := by
  match v with
  | [] => simp at hlen
  | [a] => simp at hlen
  | a :: b :: rest =>
    obtain ⟨w, ws, hw⟩ :=
      encRoundAux_cons sumv e k
        (add32 a (mx sumv ((b :: rest).getLastD 0) b (keyAt k 0 e)))
        (add32 a (mx sumv ((b :: rest).getLastD 0) b (keyAt k 0 e))) 1 b rest
    have htail :
        decRoundAux sumv e k
          (add32 a (mx sumv ((b :: rest).getLastD 0) b (keyAt k 0 e))) 1
          (add32 a (mx sumv ((b :: rest).getLastD 0) b (keyAt k 0 e)) ::
            encRoundAux sumv e k
              (add32 a (mx sumv ((b :: rest).getLastD 0) b (keyAt k 0 e)))
              (add32 a (mx sumv ((b :: rest).getLastD 0) b (keyAt k 0 e))) 1
              (b :: rest)) = b :: rest :=
      decRoundAux_encRoundAux sumv e k _ (b :: rest) _ 1
        (fun x hx => hb x (List.mem_cons_of_mem a hx))
    rw [hw] at htail
    simp only [encRound, hw, decRound, htail]
    simp [sub32_add32 a _ (hb a (by simp))]

/-! ## Loop-level inversion -/

theorem encLoop_length (k : List Nat) :
    ∀ (r : Nat) (sumv : Nat) (v : List Nat),
      (encLoop k r sumv v).length = v.length := by
  intro r
  induction r with
  | zero => intro sumv v; rfl
  | succ r ih => intro sumv v; rw [encLoop, ih, encRound_length]

theorem encLoop_mem_lt (k : List Nat) :
    ∀ (r : Nat) (sumv : Nat) (v : List Nat), 2 ≤ v.length →
      (∀ x ∈ v, x < 4294967296) →
      ∀ x ∈ encLoop k r sumv v, x < 4294967296 := by
  intro r
  induction r with
  | zero => intro sumv v _ hb; exact hb
  | succ r ih =>
    intro sumv v hlen hb
    rw [encLoop]
    exact ih _ _ (by rw [encRound_length]; exact hlen)
      (encRound_mem_lt _ _ _ _ hlen)

theorem encLoop_last (k : List Nat) :
    ∀ (r : Nat) (sumv : Nat) (v : List Nat),
      encLoop k (r + 1) sumv v =
        encRound (u32 (sumv + (r + 1) * DELTA))
          ((u32 (sumv + (r + 1) * DELTA) >>> 2) &&& 3) k
          (encLoop k r sumv v) := by
  intro r
  induction r with
  | zero =>
    intro sumv v
    show encRound (add32 sumv DELTA) ((add32 sumv DELTA >>> 2) &&& 3) k v =
      encRound (u32 (sumv + 1 * DELTA)) ((u32 (sumv + 1 * DELTA) >>> 2) &&& 3) k v
    rw [show u32 (sumv + 1 * DELTA) = add32 sumv DELTA by
      unfold add32 u32; ring_nf]
  | succ r ih =>
    intro sumv v
    have hs : u32 (add32 sumv DELTA + (r + 1) * DELTA) =
        u32 (sumv + (r + 1 + 1) * DELTA) := by
      unfold add32 u32 DELTA
      omega
    calc encLoop k (r + 1 + 1) sumv v
        = encLoop k (r + 1) (add32 sumv DELTA)
            (encRound (add32 sumv DELTA)
              ((add32 sumv DELTA >>> 2) &&& 3) k v) := rfl
      _ = encRound (u32 (sumv + (r + 1 + 1) * DELTA))
            ((u32 (sumv + (r + 1 + 1) * DELTA) >>> 2) &&& 3) k
            (encLoop k r (add32 sumv DELTA)
              (encRound (add32 sumv DELTA)
                ((add32 sumv DELTA >>> 2) &&& 3) k v)) := by
          rw [ih, hs]
      _ = encRound (u32 (sumv + (r + 1 + 1) * DELTA))
            ((u32 (sumv + (r + 1 + 1) * DELTA) >>> 2) &&& 3) k
            (encLoop k (r + 1) sumv v) := rfl

theorem decLoop_encLoop (k : List Nat) :
    ∀ (r : Nat) (sumv : Nat) (v : List Nat), 2 ≤ v.length →
      (∀ x ∈ v, x < 4294967296) →
      decLoop k r (u32 (sumv + r * DELTA)) (encLoop k r sumv v) = v := by
  intro r
  induction r with
  | zero => intro sumv v _ _; rfl
  | succ r ih =>
    intro sumv v hlen hb
    rw [encLoop_last]
    show decLoop k r
        (sub32 (u32 (sumv + (r + 1) * DELTA)) DELTA)
        (decRound (u32 (sumv + (r + 1) * DELTA))
          ((u32 (sumv + (r + 1) * DELTA) >>> 2) &&& 3) k
          (encRound (u32 (sumv + (r + 1) * DELTA))
            ((u32 (sumv + (r + 1) * DELTA) >>> 2) &&& 3) k
            (encLoop k r sumv v))) = v
    rw [decRound_encRound _ _ _ _
      (by rw [encLoop_length]; exact hlen)
      (encLoop_mem_lt k r sumv v hlen hb)]
    have hs : sub32 (u32 (sumv + (r + 1) * DELTA)) DELTA =
        u32 (sumv + r * DELTA) := by
      unfold sub32 u32 DELTA
      omega
    rw [hs]
    exact ih sumv v hlen hb

theorem block_roundtrip_aux (v k : List Nat) (hlen : 2 ≤ v.length)
    (hb : ∀ x ∈ v, x < 4294967296) :
    xxtea_decrypt_block (xxtea_encrypt_block v k) k = v := by
  have henc : xxtea_encrypt_block v k = encLoop k (6 + 52 / v.length) 0 v := by
    unfold xxtea_encrypt_block
    rw [if_neg (by omega)]
  have hlen2 : (xxtea_encrypt_block v k).length = v.length := by
    rw [henc]
    exact encLoop_length k _ _ _
  unfold xxtea_decrypt_block
  rw [hlen2, if_neg (show ¬v.length < 2 by omega), henc]
  have h := decLoop_encLoop k (6 + 52 / v.length) 0 v hlen hb
  rw [zero_add] at h
  exact h

/-- C2: Cipher engine inverse: for every list `v` of 32-bit words with
`n ≥ 2` and every key `k` of four 32-bit words,
`xxtea_decrypt_block(xxtea_encrypt_block(v, k), k) = v`; the decryptor uses
the same round count `6 + 52 // n`, starts `sum` at `(rounds * DELTA) mod
2^32` and derives key indices exactly as the encryptor does. -/
theorem C2_cipher_engine_inverse (v k : List Nat) (hlen : 2 ≤ v.length)
    (hb : ∀ x ∈ v, x < 2 ^ 32) (_hk : k.length = 4)
    (_hkb : ∀ x ∈ k, x < 2 ^ 32) :
    xxtea_decrypt_block (xxtea_encrypt_block v k) k = v := by
  refine block_roundtrip_aux v k hlen ?_
  intro x hx
  have := hb x hx
  norm_num at this
  exact this

/-- Witness for C2 at `v = [1, 2]`, `k = [3, 4, 5, 6]`. -/
theorem C2_cipher_engine_inverse_witness :
    xxtea_decrypt_block (xxtea_encrypt_block [1, 2] [3, 4, 5, 6])
      [3, 4, 5, 6] = [1, 2] :=
  C2_cipher_engine_inverse [1, 2] [3, 4, 5, 6] (by decide) (by decide)
    (by decide) (by decide)

/-- C8: Short-block no-op: for every word list `v` of length 0 or 1 and
every key `k`, both `xxtea_encrypt_block(v, k)` and
`xxtea_decrypt_block(v, k)` return `v` unchanged. -/
theorem C8_short_block_noop (v k : List Nat) (h : v.length < 2) :
    xxtea_encrypt_block v k = v ∧ xxtea_decrypt_block v k = v := by
  unfold xxtea_encrypt_block xxtea_decrypt_block
  rw [if_pos h, if_pos h]
  exact ⟨rfl, rfl⟩

/-- Witness for C8 at `v = [7]`, `k = [1, 2, 3, 4]`. -/
theorem C8_short_block_noop_witness :
    xxtea_encrypt_block [7] [1, 2, 3, 4] = [7] ∧
      xxtea_decrypt_block [7] [1, 2, 3, 4] = [7] :=
  C8_short_block_noop [7] [1, 2, 3, 4] (by decide)

/-! ## Byte / word transform lemmas -/

theorem bytesToWordsRaw_nil : bytesToWordsRaw [] = [] := rfl

theorem bytesToWordsRaw_one (a : Nat) : bytesToWordsRaw [a] = [] := rfl

theorem bytesToWordsRaw_two (a b : Nat) : bytesToWordsRaw [a, b] = [] := rfl

theorem bytesToWordsRaw_three (a b c : Nat) : bytesToWordsRaw [a, b, c] = [] := rfl

theorem bytesToWordsRaw_cons4 (b0 b1 b2 b3 : Nat) (rest : List Nat) :
    bytesToWordsRaw (b0 :: b1 :: b2 :: b3 :: rest) =
      (b0 + 256 * b1 + 65536 * b2 + 16777216 * b3) :: bytesToWordsRaw rest := rfl

theorem bytesToWordsRaw_length :
    ∀ l : List Nat, (bytesToWordsRaw l).length = l.length / 4 := by
  intro l
  induction l using bytesToWordsRaw.induct with
  | case1 b0 b1 b2 b3 rest ih =>
    rw [bytesToWordsRaw_cons4]
    simp only [List.length_cons, ih]
    omega
  | case2 l h =>
    match l, h with
    | [], _ => simp [bytesToWordsRaw_nil]
    | [a], _ => simp [bytesToWordsRaw_one]
    | [a, b], _ => simp [bytesToWordsRaw_two]
    | [a, b, c], _ => simp [bytesToWordsRaw_three]
    | b0 :: b1 :: b2 :: b3 :: rest, h => exact (h b0 b1 b2 b3 rest rfl).elim

theorem bytesToWordsRaw_mem_lt :
    ∀ l : List Nat, (∀ x ∈ l, x < 256) →
      ∀ w ∈ bytesToWordsRaw l, w < 4294967296 := by
  intro l
  induction l using bytesToWordsRaw.induct with
  | case1 b0 b1 b2 b3 rest ih =>
    intro hb w hw
    rw [bytesToWordsRaw_cons4] at hw
    simp only [List.mem_cons] at hw
    rcases hw with h | h
    · have h0 := hb b0 (by simp)
      have h1 := hb b1 (by simp)
      have h2 := hb b2 (by simp)
      have h3 := hb b3 (by simp)
      omega
    · exact ih (fun x hx => hb x (by simp [hx])) w h
  | case2 l h =>
    intro hb w hw
    match l, h with
    | [], _ => simp [bytesToWordsRaw_nil] at hw
    | [a], _ => simp [bytesToWordsRaw_one] at hw
    | [a, b], _ => simp [bytesToWordsRaw_two] at hw
    | [a, b, c], _ => simp [bytesToWordsRaw_three] at hw
    | b0 :: b1 :: b2 :: b3 :: rest, h => exact (h b0 b1 b2 b3 rest rfl).elim

theorem wordsToBytes_nil : wordsToBytes [] = [] := rfl

theorem wordsToBytes_cons (w : Nat) (ws : List Nat) :
    wordsToBytes (w :: ws) =
      w % 256 :: w / 256 % 256 :: w / 65536 % 256 :: w / 16777216 % 256 ::
        wordsToBytes ws := by
  simp [wordsToBytes]

theorem wordsToBytes_length (ws : List Nat) :
    (wordsToBytes ws).length = 4 * ws.length := by
  induction ws with
  | nil => rfl
  | cons w ws ih =>
    rw [wordsToBytes_cons]
    simp only [List.length_cons, ih]
    omega

theorem wordsToBytes_mem_lt (ws : List Nat) :
    ∀ x ∈ wordsToBytes ws, x < 256 := by
  induction ws with
  | nil => intro x hx; simp [wordsToBytes_nil] at hx
  | cons w ws ih =>
    intro x hx
    rw [wordsToBytes_cons] at hx
    simp only [List.mem_cons] at hx
    rcases hx with h | h | h | h | h
    · subst h; omega
    · subst h; omega
    · subst h; omega
    · subst h; omega
    · exact ih x h

theorem bytesToWordsRaw_wordsToBytes (ws : List Nat)
    (hb : ∀ w ∈ ws, w < 4294967296) :
    bytesToWordsRaw (wordsToBytes ws) = ws := by
  induction ws with
  | nil => rfl
  | cons w ws ih =>
    have hw := hb w (by simp)
    rw [wordsToBytes_cons, bytesToWordsRaw_cons4,
      ih (fun x hx => hb x (by simp [hx]))]
    congr 1
    omega

theorem wordsToBytes_bytesToWordsRaw :
    ∀ l : List Nat, (∀ x ∈ l, x < 256) → l.length % 4 = 0 →
      wordsToBytes (bytesToWordsRaw l) = l := by
  intro l
  induction l using bytesToWordsRaw.induct with
  | case1 b0 b1 b2 b3 rest ih =>
    intro hb hlen
    have h0 := hb b0 (by simp)
    have h1 := hb b1 (by simp)
    have h2 := hb b2 (by simp)
    have h3 := hb b3 (by simp)
    rw [bytesToWordsRaw_cons4, wordsToBytes_cons,
      ih (fun x hx => hb x (by simp [hx])) (by simp at hlen; omega)]
    have e0 : (b0 + 256 * b1 + 65536 * b2 + 16777216 * b3) % 256 = b0 := by omega
    have e1 : (b0 + 256 * b1 + 65536 * b2 + 16777216 * b3) / 256 % 256 = b1 := by
      omega
    have e2 : (b0 + 256 * b1 + 65536 * b2 + 16777216 * b3) / 65536 % 256 = b2 := by
      omega
    have e3 : (b0 + 256 * b1 + 65536 * b2 + 16777216 * b3) / 16777216 % 256 = b3 := by
      omega
    rw [e0, e1, e2, e3]
  | case2 l h =>
    intro hb hlen
    match l, h with
    | [], _ => rfl
    | [a], _ => simp at hlen
    | [a, b], _ => simp at hlen
    | [a, b, c], _ => simp at hlen
    | b0 :: b1 :: b2 :: b3 :: rest, h => exact (h b0 b1 b2 b3 rest rfl).elim

theorem decRoundAux_length (sumv e : Nat) (k : List Nat) (y0 : Nat) :
    ∀ (l : List Nat) (p : Nat),
      (decRoundAux sumv e k y0 p l).length = l.length - 1 := by
  intro l
  induction l with
  | nil => intro p; rfl
  | cons z tail ih =>
    intro p
    cases tail with
    | nil => rfl
    | cons x tail2 =>
      cases tail2 with
      | nil => rfl
      | cons y rest =>
        simp only [decRoundAux, List.length_cons, ih (p + 1)]
        omega

theorem decRound_length (sumv e : Nat) (k : List Nat) (v : List Nat) :
    (decRound sumv e k v).length = v.length := by
  match v with
  | [] => rfl
  | [x] => rfl
  | w0 :: w1 :: rest =>
    simp only [decRound, List.length_cons,
      decRoundAux_length sumv e k w0 (w0 :: w1 :: rest) 1]
    simp

theorem decLoop_length (k : List Nat) :
    ∀ (r : Nat) (sumv : Nat) (v : List Nat),
      (decLoop k r sumv v).length = v.length := by
  intro r
  induction r with
  | zero => intro sumv v; rfl
  | succ r ih => intro sumv v; rw [decLoop, ih, decRound_length]

theorem xxtea_encrypt_block_length (v k : List Nat) :
    (xxtea_encrypt_block v k).length = v.length := by
  unfold xxtea_encrypt_block
  split_ifs
  · rfl
  · exact encLoop_length k _ _ _

theorem xxtea_decrypt_block_length (v k : List Nat) :
    (xxtea_decrypt_block v k).length = v.length := by
  unfold xxtea_decrypt_block
  split_ifs
  · rfl
  · exact decLoop_length k _ _ _

theorem pad4_length (b : List Nat) :
    (pad4 b).length = b.length + (4 - b.length % 4) % 4 := by
  simp [pad4]

theorem pad4_of_mod4 (b : List Nat) (h : b.length % 4 = 0) : pad4 b = b := by
  unfold pad4
  rw [h]
  simp

theorem bytesToWords_length (b : List Nat) :
    (bytesToWords b).length =
      if (pad4 b).length / 4 = 1 then 2 else (pad4 b).length / 4 := by
  have h := bytesToWordsRaw_length (pad4 b)
  simp only [bytesToWords]
  split_ifs with h1 h2 <;>
    simp only [List.length_append, List.length_cons, List.length_nil] at * <;>
    omega

/-- C5 counterexample: on the empty byte buffer the word sequence built inside
`xxtea_encrypt_bytes` / `xxtea_decrypt_bytes` is empty, so its length is not
at least 2. -/
theorem C5_min_word_count_counterexample :
    ¬2 ≤ (bytesToWords ([] : List Nat)).length := by decide

/-- C5 (amended): for every nonempty byte buffer `b`, the word sequence built
inside `xxtea_encrypt_bytes` and `xxtea_decrypt_bytes` (zero-pad to a multiple
of four bytes, reinterpret as little-endian words, append one zero word when
there is exactly one word) has length at least 2.  (The empty buffer yields an
empty word sequence.) -/
theorem C5_min_word_count (b : List Nat) (hb : b ≠ []) :
    2 ≤ (bytesToWords b).length := by
  have hlen : 1 ≤ b.length := List.length_pos.mpr hb
  rw [bytesToWords_length, pad4_length]
  split_ifs with h <;> omega

/-- Witness for C5 (amended) at `b = [5]`. -/
theorem C5_min_word_count_witness : 2 ≤ (bytesToWords [5]).length :=
  C5_min_word_count [5] (by decide)

/-- C9: Byte-level length behaviour: `xxtea_decrypt_bytes(b, k)` returns
exactly `len(b)` bytes, while `xxtea_encrypt_bytes(b, k)` returns `len(b)`
rounded up to the next multiple of 4 bytes. -/
theorem C9_byte_lengths (b key16 : List Nat) :
    (xxtea_encrypt_bytes b key16).length = 4 * ((b.length + 3) / 4) ∧
      (xxtea_decrypt_bytes b key16).length = b.length := by
  constructor
  · simp only [xxtea_encrypt_bytes]
    rw [List.length_take, wordsToBytes_length, xxtea_encrypt_block_length,
      bytesToWords_length, pad4_length]
    split_ifs with h <;> omega
  · simp only [xxtea_decrypt_bytes]
    rw [List.length_take, wordsToBytes_length, xxtea_decrypt_block_length,
      bytesToWords_length]
    have hp4 := pad4_length b
    split_ifs with h <;> omega

/-! ## Checksum lemmas -/

theorem sum_set_add (b : Nat) :
    ∀ (p : List Nat) (i : Nat), i < p.length →
      (p.set i b).sum + p.getD i 0 = p.sum + b := by
  intro p
  induction p with
  | nil => intro i h; simp at h
  | cons a t ih =>
    intro i h
    cases i with
    | zero => simp [List.set]; omega
    | succ j =>
      simp only [List.set, List.sum_cons, List.getD_cons_succ]
      have := ih j (by simp at h; omega)
      omega

/-- C6: Checksum stability: `calc_checksum` is invariant under any
permutation of the payload bytes, and replacing the byte at a valid index by
a different byte value always changes the checksum. -/
theorem C6_checksum_stability :
    (∀ p q : List Nat, p.Perm q → calc_checksum p = calc_checksum q) ∧
      (∀ (p : List Nat) (i b : Nat), i < p.length → (∀ x ∈ p, x < 256) →
        b < 256 → b ≠ p.getD i 0 →
        calc_checksum (p.set i b) ≠ calc_checksum p) := by
  constructor
  · intro p q hpq
    unfold calc_checksum
    rw [hpq.sum_eq]
  · intro p i b hi hp hb hne heq
    have hsum := sum_set_add b p i hi
    have hpi : p.getD i 0 < 256 := by
      rw [List.getD_eq_getElem p 0 hi]
      exact hp _ (List.getElem_mem hi)
    unfold calc_checksum u32 at heq
    omega

/-- Witness for C6: permutation invariance at `p = [1, 2]`, `q = [2, 1]`, and
mutation sensitivity at `p = [1, 2]`, `i = 0`, `b = 5`. -/
theorem C6_checksum_stability_witness :
    calc_checksum [1, 2] = calc_checksum [2, 1] ∧
      calc_checksum ([1, 2].set 0 5) ≠ calc_checksum [1, 2] :=
  ⟨C6_checksum_stability.1 [1, 2] [2, 1] (by decide),
    C6_checksum_stability.2 [1, 2] 0 5 (by decide) (by decide) (by decide)
      (by decide)⟩

/-! ## Trailer codec lemmas -/

theorem u32le_length (x : Nat) : (u32le x).length = 4 := rfl

/-- C3: `unpack_block` fails exactly on the three framing conditions
(`len < 9`, last byte above 8, negative derived payload length); in
particular it never fails because of a checksum mismatch. -/
theorem C3_unpack_framing (plain : List Nat) :
    (∃ e, unpack_block plain = Except.error e) ↔
      (plain.length < 9 ∨ 8 < plain.getD (plain.length - 1) 0 ∨
        (plain.length : Int) - plain.getD (plain.length - 1) 0 - 9 < 0) := by
  simp only [unpack_block]
  split_ifs with h1 h2 h3
  · exact iff_of_true ⟨_, rfl⟩ (Or.inl h1)
  · exact iff_of_true ⟨_, rfl⟩ (Or.inr (Or.inl h2))
  · exact iff_of_true ⟨_, rfl⟩ (Or.inr (Or.inr h3))
  · refine iff_of_false ?_ ?_
    · rintro ⟨e, he⟩
      exact he.elim
    · simp only [not_or]
      exact ⟨h1, h2, h3⟩

/-- Witness for C3: a 9-byte block whose last byte is 9 is rejected. -/
theorem C3_unpack_framing_witness :
    ∃ e, unpack_block [0, 0, 0, 0, 0, 0, 0, 0, 9] = Except.error e :=
  (C3_unpack_framing [0, 0, 0, 0, 0, 0, 0, 0, 9]).mpr (by decide)

theorem ok_bind {α β : Type} (a : α) (f : α → Except String β) :
    (Except.ok a >>= f) = f a := rfl

theorem error_bind {α β : Type} (e : String) (f : α → Except String β) :
    ((Except.error e : Except String α) >>= f) = Except.error e := rfl

theorem pack_block_none (p : List Nat) (t : Nat) :
    pack_block p t none =
      Except.ok (p ++ (u32le (calc_checksum p) ++ u32le t) ++
        List.replicate ((8 - (p.length + 9) % 8) % 8) 0 ++
        [(8 - (p.length + 9) % 8) % 8]) := by
  have hmod : ¬((p ++ (u32le (calc_checksum p) ++ u32le t) ++
      List.replicate ((8 - (p.length + 9) % 8) % 8) 0 ++
      [(8 - (p.length + 9) % 8) % 8]).length % 8 ≠ 0) := by
    simp only [List.length_append, List.length_replicate, List.length_cons,
      List.length_nil, u32le_length]
    omega
  by_cases h1 : (8 - (p.length + 9) % 8) % 8 ≠ 0
  · simp only [pack_block, if_pos h1, ok_bind]
    rw [if_neg hmod]
  · rw [not_ne_iff] at h1
    simp only [pack_block, h1, if_neg (by simp : ¬(0 : Nat) ≠ 0), ok_bind]
    rw [h1] at hmod
    simp only [List.replicate_zero] at hmod
    rw [if_neg (by simpa using hmod)]
    simp

theorem pack_block_some (p : List Nat) (t : Nat) (l : List Nat)
    (h : (8 - (p.length + 9) % 8) % 8 ≤ l.length) :
    pack_block p t (some l) =
      Except.ok (p ++ (u32le (calc_checksum p) ++ u32le t) ++
        l.take ((8 - (p.length + 9) % 8) % 8) ++
        [(8 - (p.length + 9) % 8) % 8]) := by
  have hmod : ¬((p ++ (u32le (calc_checksum p) ++ u32le t) ++
      l.take ((8 - (p.length + 9) % 8) % 8) ++
      [(8 - (p.length + 9) % 8) % 8]).length % 8 ≠ 0) := by
    simp only [List.length_append, List.length_take, List.length_cons,
      List.length_nil, u32le_length]
    omega
  by_cases h1 : (8 - (p.length + 9) % 8) % 8 ≠ 0
  · simp only [pack_block, if_pos h1, if_neg (by omega : ¬l.length < (8 - (p.length + 9) % 8) % 8),
      ok_bind]
    rw [if_neg hmod]
  · rw [not_ne_iff] at h1
    simp only [pack_block, h1, if_neg (by simp : ¬(0 : Nat) ≠ 0), ok_bind]
    rw [h1] at hmod
    simp only [List.take_zero] at hmod
    rw [if_neg (by simpa using hmod)]
    simp

theorem pack_block_some_short (p : List Nat) (t : Nat) (l : List Nat)
    (h0 : (8 - (p.length + 9) % 8) % 8 ≠ 0)
    (h : l.length < (8 - (p.length + 9) % 8) % 8) :
    pack_block p t (some l) = Except.error "pad_bytes zu kurz" := by
  simp only [pack_block, if_pos h0, if_pos h, error_bind]

theorem getD_append_idx (l l' : List Nat) (n j : Nat) (h : n = l.length + j) :
    (l ++ l').getD n 0 = l'.getD j 0 := by
  rw [List.getD_append_right _ _ _ _ (by omega)]
  congr 1
  omega

theorem readU32_shift (l l' : List Nat) (n j : Nat) (h : n = l.length + j) :
    readU32 (l ++ l') n = readU32 l' j := by
  unfold readU32
  rw [getD_append_idx l l' n j h, getD_append_idx l l' (n + 1) (j + 1) (by omega),
    getD_append_idx l l' (n + 2) (j + 2) (by omega),
    getD_append_idx l l' (n + 3) (j + 3) (by omega)]

theorem readU32_u32le (x : Nat) (rest : List Nat) :
    readU32 (u32le x ++ rest) 0 = u32 x := by
  unfold readU32 u32le u32
  simp only [List.cons_append, List.getD_cons_zero, List.getD_cons_succ]
  omega

/-- Unpacking a well-formed packed block recovers the payload, the stored
checksum and tag words, and the pad length. -/
theorem unpack_block_append (p : List Nat) (c t : Nat) (pad : List Nat)
    (padl : Nat) (hpad : pad.length = padl) (hle : padl ≤ 8) :
    unpack_block (p ++ (u32le c ++ u32le t) ++ pad ++ [padl]) =
      Except.ok (p, u32 c, u32 t, padl) := by
  have hassoc : p ++ (u32le c ++ u32le t) ++ pad ++ [padl] =
      p ++ (u32le c ++ (u32le t ++ (pad ++ [padl]))) := by
    simp [List.append_assoc]
  rw [hassoc]
  have hlen : (p ++ (u32le c ++ (u32le t ++ (pad ++ [padl])))).length =
      p.length + 9 + padl := by
    simp only [List.length_append, List.length_cons, List.length_nil,
      u32le_length]
    omega
  have hgd : (p ++ (u32le c ++ (u32le t ++ (pad ++ [padl])))).getD
      (p.length + 9 + padl - 1) 0 = padl := by
    rw [getD_append_idx _ _ _ (8 + padl) (by omega),
      getD_append_idx _ _ _ (4 + padl) (by rw [u32le_length]; omega),
      getD_append_idx _ _ _ padl (by rw [u32le_length]),
      getD_append_idx _ _ _ 0 (by omega)]
    rfl
  simp only [unpack_block, hlen, hgd]
  rw [if_neg (by omega), if_neg (by omega), if_neg (by omega)]
  have htonat : ((p.length + 9 + padl : Nat) : Int) - (padl : Nat) - 9 =
      (p.length : Int) := by
    push_cast
    ring
  rw [htonat]
  have htn : ((p.length : Int)).toNat = p.length := Int.toNat_natCast _
  rw [htn]
  congr 1
  simp only [Prod.mk.injEq]
  refine ⟨List.take_left' rfl, ?_, ?_, trivial⟩
  · rw [readU32_shift p _ p.length 0 (by omega), readU32_u32le]
  · rw [readU32_shift p _ (p.length + 4) 4 (by omega),
      readU32_shift (u32le c) _ 4 0 (by simp only [u32le_length]),
      readU32_u32le]

/-- C4: Pack alignment: whenever `pad_bytes` is `None` or long enough,
`pack_block` succeeds with a block of length
`len(payload) + 9 + ((-(len(payload)+9)) mod 8)`, a multiple of 8 — so the
internal alignment assertion is unreachable under that precondition. -/
theorem C4_pack_alignment (p : List Nat) (t : Nat) (pb : Option (List Nat))
    (hpb : ∀ l, pb = some l → (8 - (p.length + 9) % 8) % 8 ≤ l.length) :
    ∃ block, pack_block p t pb = Except.ok block ∧
      block.length = p.length + 9 + (8 - (p.length + 9) % 8) % 8 ∧
      block.length % 8 = 0 := by
  cases pb with
  | none =>
    refine ⟨_, pack_block_none p t, ?_, ?_⟩ <;>
      simp only [List.length_append, List.length_replicate, List.length_cons,
        List.length_nil, u32le_length] <;>
      omega
  | some l =>
    have hl := hpb l rfl
    refine ⟨_, pack_block_some p t l hl, ?_, ?_⟩ <;>
      simp only [List.length_append, List.length_take, List.length_cons,
        List.length_nil, u32le_length] <;>
      omega

/-- Witness for C4 at `p = [1, 2, 3]`, `t = 7`, `pad_bytes = None`. -/
theorem C4_pack_alignment_witness :
    ∃ block, pack_block [1, 2, 3] 7 none = Except.ok block ∧
      block.length = 3 + 9 + (8 - (3 + 9) % 8) % 8 ∧ block.length % 8 = 0 := by
  have h := C4_pack_alignment [1, 2, 3] 7 none
    (fun l hl => Option.noConfusion hl)
  simpa using h

/-- C10: `pack_block` pad-length contract: it errors exactly when the
required `padlen` is nonzero, `pad_bytes` is supplied and too short;
`pad_bytes = None` behaves like `padlen` zero bytes, and of a long enough
`pad_bytes` only the first `padlen` bytes matter. -/
theorem C10_pack_pad_contract (p : List Nat) (t : Nat)
    (pb : Option (List Nat)) :
    ((∃ e, pack_block p t pb = Except.error e) ↔
      ((8 - (p.length + 9) % 8) % 8 ≠ 0 ∧
        ∃ l, pb = some l ∧ l.length < (8 - (p.length + 9) % 8) % 8)) ∧
      pack_block p t none =
        pack_block p t
          (some (List.replicate ((8 - (p.length + 9) % 8) % 8) 0)) ∧
      (∀ l : List Nat, (8 - (p.length + 9) % 8) % 8 ≤ l.length →
        pack_block p t (some l) =
          pack_block p t (some (l.take ((8 - (p.length + 9) % 8) % 8)))) := by
  refine ⟨⟨?_, ?_⟩, ?_, ?_⟩
  · rintro ⟨e, he⟩
    cases pb with
    | none =>
      rw [pack_block_none] at he
      exact Except.noConfusion he
    | some l =>
      by_cases h0 : (8 - (p.length + 9) % 8) % 8 ≤ l.length
      · rw [pack_block_some p t l h0] at he
        exact Except.noConfusion he
      · exact ⟨by omega, l, rfl, by omega⟩
  · rintro ⟨h0, l, rfl, hlen⟩
    exact ⟨_, pack_block_some_short p t l h0 hlen⟩
  · rw [pack_block_none, pack_block_some p t _ (by simp)]
    simp
  · intro l hl
    rw [pack_block_some p t l hl,
      pack_block_some p t _ (by simp only [List.length_take]; omega)]
    rw [List.take_take]
    simp

/-- Witness for C10 at `p = [1]`, `t = 0`, `pad_bytes = some []` (too
short): `pack_block` fails. -/
theorem C10_pack_pad_contract_witness :
    ∃ e, pack_block [1] 0 (some []) = Except.error e :=
  (C10_pack_pad_contract [1] 0 (some [])).1.2
    ⟨by decide, [], rfl, by decide⟩

/-- C7: Padding-content noninterference: for any two sufficiently long pad
buffers `A` and `B`, packing with `A` and with `B` and unpacking yields the
same result; unpacking never depends on the pad content. -/
theorem C7_padding_noninterference (p : List Nat) (t : Nat) (A B : List Nat)
    (hA : (8 - (p.length + 9) % 8) % 8 ≤ A.length)
    (hB : (8 - (p.length + 9) % 8) % 8 ≤ B.length) :
    (pack_block p t (some A) >>= unpack_block) =
      (pack_block p t (some B) >>= unpack_block) := by
  rw [pack_block_some p t A hA, pack_block_some p t B hB, ok_bind, ok_bind,
    unpack_block_append _ _ _ _ _ (by simp only [List.length_take]; omega)
      (by omega),
    unpack_block_append _ _ _ _ _ (by simp only [List.length_take]; omega)
      (by omega)]

/-- Witness for C7 at `p = [9]`, `t = 1`, `A` all-255, `B` all-0 pads. -/
theorem C7_padding_noninterference_witness :
    (pack_block [9] 1 (some [255, 255, 255, 255, 255, 255]) >>= unpack_block) =
      (pack_block [9] 1 (some [0, 0, 0, 0, 0, 0]) >>= unpack_block) :=
  C7_padding_noninterference [9] 1 _ _ (by decide) (by decide)

/-! ## End-to-end round trip -/

theorem u32_of_lt {x : Nat} (h : x < 4294967296) : u32 x = x :=
  Nat.mod_eq_of_lt h

theorem u32le_mem_lt (v : Nat) : ∀ x ∈ u32le v, x < 256 := by
  intro x hx
  simp only [u32le, List.mem_cons, List.not_mem_nil, or_false] at hx
  rcases hx with h | h | h | h <;> subst h <;> omega

theorem xxtea_encrypt_block_mem_lt (v k : List Nat)
    (hb : ∀ x ∈ v, x < 4294967296) :
    ∀ x ∈ xxtea_encrypt_block v k, x < 4294967296 := by
  unfold xxtea_encrypt_block
  split_ifs with h
  · exact hb
  · exact encLoop_mem_lt k _ _ _ (by omega) hb

/-- Encrypt-then-decrypt at byte level is the identity on buffers of at
least 8 bytes whose length is a multiple of 4. -/
theorem bytes_roundtrip (b key : List Nat) (hb : ∀ x ∈ b, x < 256)
    (hlen4 : b.length % 4 = 0) (hlen8 : 8 ≤ b.length) :
    xxtea_decrypt_bytes (xxtea_encrypt_bytes b key) key = b := by
  have hp4 : pad4 b = b := pad4_of_mod4 b hlen4
  have hvlen : (bytesToWordsRaw b).length = b.length / 4 :=
    bytesToWordsRaw_length b
  have hbw : bytesToWords b = bytesToWordsRaw b := by
    simp only [bytesToWords, hp4]
    rw [if_neg (by omega)]
  have hvb : ∀ x ∈ bytesToWordsRaw b, x < 4294967296 :=
    bytesToWordsRaw_mem_lt b hb
  have heblen :
      (xxtea_encrypt_block (bytesToWordsRaw b) (bytesToWordsRaw key)).length =
        b.length / 4 := by
    rw [xxtea_encrypt_block_length, hvlen]
  have hebb : ∀ x ∈ xxtea_encrypt_block (bytesToWordsRaw b)
      (bytesToWordsRaw key), x < 4294967296 :=
    xxtea_encrypt_block_mem_lt _ _ hvb
  have henc : xxtea_encrypt_bytes b key =
      wordsToBytes (xxtea_encrypt_block (bytesToWordsRaw b)
        (bytesToWordsRaw key)) := by
    simp only [xxtea_encrypt_bytes, hbw, hp4]
    exact List.take_of_length_le (by rw [wordsToBytes_length, heblen]; omega)
  rw [henc]
  have hweblen :
      (wordsToBytes (xxtea_encrypt_block (bytesToWordsRaw b)
        (bytesToWordsRaw key))).length = b.length := by
    rw [wordsToBytes_length, heblen]
    omega
  have hwp4 : pad4 (wordsToBytes (xxtea_encrypt_block (bytesToWordsRaw b)
      (bytesToWordsRaw key))) =
      wordsToBytes (xxtea_encrypt_block (bytesToWordsRaw b)
        (bytesToWordsRaw key)) :=
    pad4_of_mod4 _ (by rw [hweblen]; omega)
  have hbw2 : bytesToWords (wordsToBytes (xxtea_encrypt_block
      (bytesToWordsRaw b) (bytesToWordsRaw key))) =
      xxtea_encrypt_block (bytesToWordsRaw b) (bytesToWordsRaw key) := by
    simp only [bytesToWords, hwp4]
    rw [bytesToWordsRaw_wordsToBytes _ hebb, if_neg (by omega)]
  simp only [xxtea_decrypt_bytes, hbw2, hweblen]
  rw [block_roundtrip_aux (bytesToWordsRaw b) (bytesToWordsRaw key)
      (by omega) hvb,
    wordsToBytes_bytesToWordsRaw b hb hlen4, List.take_length]

/-- C1: End-to-end round trip: for every payload `p` (any byte values,
including the empty payload) and every 32-bit tag `t`, packing, encrypting
with `KEY`, decrypting with `KEY` and unpacking recovers exactly `p`,
the matching checksum `calc_checksum p`, and the same tag `t`. -/
theorem C1_end_to_end_roundtrip (p : List Nat) (t : Nat)
    (hp : ∀ x ∈ p, x < 256) (ht : t < 2 ^ 32) :
    ∃ block, pack_block p t none = Except.ok block ∧
      unpack_block (xxtea_decrypt_bytes (xxtea_encrypt_bytes block KEY) KEY) =
        Except.ok (p, calc_checksum p, t, (8 - (p.length + 9) % 8) % 8) := by
  refine ⟨_, pack_block_none p t, ?_⟩
  have hbk : ∀ x ∈ p ++ (u32le (calc_checksum p) ++ u32le t) ++
      List.replicate ((8 - (p.length + 9) % 8) % 8) 0 ++
      [(8 - (p.length + 9) % 8) % 8], x < 256 := by
    intro x hx
    simp only [List.mem_append, List.mem_cons, List.not_mem_nil, or_false,
      List.mem_replicate] at hx
    rcases hx with ((hx | (hx | hx)) | hx) | hx
    · exact hp x hx
    · exact u32le_mem_lt _ x hx
    · exact u32le_mem_lt _ x hx
    · omega
    · omega
  have hblen : (p ++ (u32le (calc_checksum p) ++ u32le t) ++
      List.replicate ((8 - (p.length + 9) % 8) % 8) 0 ++
      [(8 - (p.length + 9) % 8) % 8]).length =
      p.length + 9 + (8 - (p.length + 9) % 8) % 8 := by
    simp only [List.length_append, List.length_replicate, List.length_cons,
      List.length_nil, u32le_length]
    omega
  rw [bytes_roundtrip _ KEY hbk (by omega) (by omega),
    unpack_block_append p (calc_checksum p) t _ _
      (List.length_replicate _ _) (by omega)]
  have hc : u32 (calc_checksum p) = calc_checksum p :=
    u32_of_lt (u32_lt _)
  rw [hc, u32_of_lt (by norm_num at ht; exact ht)]

/-- Witness for C1 at the empty payload and the default tag `EXTRA4`. -/
theorem C1_end_to_end_roundtrip_witness :
    ∃ block, pack_block [] EXTRA4 none = Except.ok block ∧
      unpack_block (xxtea_decrypt_bytes (xxtea_encrypt_bytes block KEY) KEY) =
        Except.ok ([], calc_checksum [], EXTRA4,
          (8 - (([] : List Nat).length + 9) % 8) % 8) :=
  C1_end_to_end_roundtrip [] EXTRA4 (by decide) (by decide)

end DbsCodec
